import Mathlib

/-!
Verification of `src/301_redirect_CSV_mapper.py`.

URLs are modeled as lists of characters (`Url`). The similarity score used by
`find_best_match` is Python's `difflib.SequenceMatcher(None, a, b).ratio()`;
it is embedded here by its documented contract: repeatedly take the longest
matching block (with the documented tie-break: maximal size, then smallest
start in `a`, then smallest start in `b`), recurse on both sides, and return
`2*M / (len(a)+len(b))` where `M` is the total matched size.  Scores are
exact rationals (the Python floats are modeled exactly); the junk heuristics
of `SequenceMatcher` (`isjunk` is `None` in the source; `autojunk` only acts
on sequences of length ≥ 200) are not modeled.  Case folding is modeled by
`Char.toLower` (ASCII), matching Python `str.lower` on ASCII URLs.
-/

/-- URL strings, as character lists. -/
abbrev Url := List Char

/-- Length of the longest common prefix of two character lists. -/
def commonPrefixLen : List Char → List Char → Nat
  | [], _ => 0
  | _ :: _, [] => 0
  | a :: as, b :: bs => if a = b then commonPrefixLen as bs + 1 else 0

/-- Length of the matching run of `a` and `b` starting at positions `i` and `j`,
confined to the windows `[i, ahi)` of `a` and `[j, bhi)` of `b`. -/
def runLen (a b : List Char) (ahi bhi i j : Nat) : Nat :=
  commonPrefixLen ((a.drop i).take (ahi - i)) ((b.drop j).take (bhi - j))

/-- All pairs from two index lists, in lexicographic order. -/
def pairList (is js : List Nat) : List (Nat × Nat) :=
  match is with
  | [] => []
  | i :: is => js.map (fun j => (i, j)) ++ pairList is js

/-- The candidate start pairs of a window of `find_longest_match`. -/
def flmCandidates (alo ahi blo bhi : Nat) : List (Nat × Nat) :=
  pairList (List.range' alo (ahi - alo)) (List.range' blo (bhi - blo))

/-- `SequenceMatcher.find_longest_match` on the windows `[alo, ahi)` × `[blo, bhi)`,
per its documented contract with no junk: the triple `(i, j, k)` with
`a[i:i+k] == b[j:j+k]`, `k` maximal, then `i` minimal, then `j` minimal;
`(alo, blo, 0)` when there is no matching block. -/
def findLongestMatch (a b : List Char) (alo ahi blo bhi : Nat) : Nat × Nat × Nat :=
  let pairs := flmCandidates alo ahi blo bhi
  let bestsize := (pairs.map (fun p => runLen a b ahi bhi p.1 p.2)).foldl max 0
  match pairs.find? (fun p => runLen a b ahi bhi p.1 p.2 == bestsize) with
  | some p => (p.1, p.2, bestsize)
  | none => (alo, blo, 0)

/-- Total size of the matching blocks of `SequenceMatcher.get_matching_blocks`
on a window: take the longest match, recurse left and right of it.  `fuel`
bounds the recursion depth; any `fuel` larger than the window of `a` is exact. -/
def matchedAux (a b : List Char) : Nat → Nat → Nat → Nat → Nat → Nat
  | 0, _, _, _, _ => 0
  | fuel + 1, alo, ahi, blo, bhi =>
    match findLongestMatch a b alo ahi blo bhi with
    | (i, j, k) =>
      if k = 0 then 0
      else matchedAux a b fuel alo i blo j + k + matchedAux a b fuel (i + k) ahi (j + k) bhi

/-- `M`: the number of matched characters between `a` and `b`. -/
def matchedSize (a b : List Char) : Nat :=
  matchedAux a b (a.length + 1) 0 a.length 0 b.length

/-- `SequenceMatcher(None, a, b).ratio()`: `2*M / (len(a)+len(b))`, exactly. -/
def ratio (a b : List Char) : ℚ :=
  2 * (matchedSize a b : ℚ) / ((a.length + b.length : Nat) : ℚ)

/-- `normalize_url` from the source: prepend `'/'` unless the URL already starts
with one, then lowercase. -/
def normalize_url (url : Url) : Url :=
  (if url.head? = some '/' then url else '/' :: url).map Char.toLower

/-- The `for old_url in old_urls` loop of `find_best_match`: keep the first
candidate whose score strictly exceeds the best seen so far. -/
def bestLoop (nq : Url) (best : Option Url × ℚ) : List Url → Option Url × ℚ
  | [] => best
  | old_url :: rest =>
    let score := ratio nq (normalize_url old_url)
    bestLoop nq (if best.2 < score then (some old_url, score) else best) rest

/-- `find_best_match` from the source: scan the candidates, then return the best
pair only when the best score strictly exceeds `0.6`, else `(None, 0)`. -/
def find_best_match (new_url : Url) (old_urls : List Url) : Option Url × ℚ :=
  let r := bestLoop (normalize_url new_url) ((none : Option Url), 0) old_urls
  if 3/5 < r.2 then r else ((none : Option Url), 0)

/-- The maximum similarity score of a query over a candidate list (`0` when the
list is empty; all scores are nonnegative). -/
def bestScore (new_url : Url) (old_urls : List Url) : ℚ :=
  (old_urls.map (fun c => ratio (normalize_url new_url) (normalize_url c))).foldl max 0

/-- The leading-slash correction applied to output URLs in `process_batch`. -/
def slashFix (u : Url) : Url := if u.head? = some '/' then u else '/' :: u

/-- The per-URL loop of `process_batch`: slash-fix the new URL, match it, and
append to the matched or unmatched results.  Python's `if matched_url:` is
false both for `None` and for the empty string. -/
def process_batch (batch : List Url) (old_urls : List Url) :
    List (Url × Url) × List Url :=
  match batch with
  | [] => ([], [])
  | u :: rest =>
    let nu := slashFix u
    let r := process_batch rest old_urls
    match find_best_match nu old_urls with
    | (some m, _) =>
      if m = [] then (r.1, nu :: r.2) else ((nu, slashFix m) :: r.1, r.2)
    | (none, _) => (r.1, nu :: r.2)

/-- The header field `cToUrl`. -/
def headerTo : Url := (r"cToUrl").data

/-- The header field `cFromUrl`. -/
def headerFrom : Url := (r"cFromUrl").data

/-- Content of `matched_urls_batch_<N>.csv` as rows of fields: written only when
the matched list is nonempty, header `cToUrl,cFromUrl` then one row per pair. -/
def matched_csv (m : List (Url × Url)) : Option (List (List Url)) :=
  if m = [] then none
  else some ([headerTo, headerFrom] :: m.map (fun p => [p.1, p.2]))

/-- Content of `unmatched_urls_batch_<N>.csv` as rows of fields: written only
when the unmatched list is nonempty, header `cToUrl` then one row per URL. -/
def unmatched_csv (u : List Url) : Option (List (List Url)) :=
  if u = [] then none
  else some ([headerTo] :: u.map (fun x => [x]))

/-- `batch_count` from `map_urls_in_batches`: `(len(new_urls) // batch_size) + 1`. -/
def batch_count (total batch_size : Nat) : Nat := total / batch_size + 1

/-- The slices `new_urls[batch_num*batch_size : (batch_num+1)*batch_size]` passed
to `process_batch` by `map_urls_in_batches`, in order. -/
def batches (new_urls : List Url) (batch_size : Nat) : List (List Url) :=
  (List.range (batch_count new_urls.length batch_size)).map
    (fun batch_num => (new_urls.drop (batch_num * batch_size)).take batch_size)

/-! ### Character-level lemmas -/

theorem isValidChar_of_le (n : Nat) (h : n < 0xd800) : n.isValidChar :=
  Or.inl h

theorem toNat_ofNat_of_valid (n : Nat) (h : n.isValidChar) :
    (Char.ofNat n).toNat = n := by
  rw [Char.ofNat, dif_pos h]
  rfl

theorem toLower_eq (c : Char) :
    c.toLower = if c.toNat ≥ 65 ∧ c.toNat ≤ 90 then Char.ofNat (c.toNat + 32) else c :=
  rfl

theorem toLower_toNat (c : Char) :
    c.toLower.toNat = if c.toNat ≥ 65 ∧ c.toNat ≤ 90 then c.toNat + 32 else c.toNat := by
  rw [toLower_eq]
  by_cases h : c.toNat ≥ 65 ∧ c.toNat ≤ 90
  · rw [if_pos h, if_pos h, toNat_ofNat_of_valid _ (isValidChar_of_le _ (by omega))]
  · rw [if_neg h, if_neg h]

theorem toLower_idem (c : Char) : c.toLower.toLower = c.toLower := by
  by_cases h : c.toNat ≥ 65 ∧ c.toNat ≤ 90
  · have h1 : c.toLower.toNat = c.toNat + 32 := by rw [toLower_toNat, if_pos h]
    rw [toLower_eq c.toLower, if_neg (by omega)]
  · have h1 : c.toLower = c := by rw [toLower_eq, if_neg h]
    rw [h1, h1]

/-! ### `normalize_url` lemmas -/

theorem slash_toLower : Char.toLower '/' = '/' := by decide

theorem normalize_url_head (u : Url) : (normalize_url u).head? = some '/' := by
  rw [normalize_url]
  by_cases h : u.head? = some '/'
  · rw [if_pos h]
    cases u with
    | nil => simp at h
    | cons c t =>
      simp only [List.head?_cons, Option.some.injEq] at h
      subst h
      simp [slash_toLower]
  · rw [if_neg h]
    simp [slash_toLower]

theorem normalize_url_lower_fixed (u : Url) :
    (normalize_url u).map Char.toLower = normalize_url u := by
  rw [normalize_url, List.map_map]
  exact List.map_congr_left (fun c _ => toLower_idem c)

theorem normalize_url_idem (u : Url) :
    normalize_url (normalize_url u) = normalize_url u := by
  conv_lhs => rw [normalize_url]
  rw [if_pos (normalize_url_head u), normalize_url_lower_fixed]

/-- C7: `normalize_url` always yields a leading slash and a lowercase string,
is idempotent, and sends the empty string to `/`. -/
theorem C7_normalize_url (u : Url) :
    (normalize_url u).head? = some '/' ∧
    (normalize_url u).map Char.toLower = normalize_url u ∧
    normalize_url (normalize_url u) = normalize_url u ∧
    normalize_url [] = ['/'] :=
  ⟨normalize_url_head u, normalize_url_lower_fixed u, normalize_url_idem u, by decide⟩

/-! ### `commonPrefixLen` and `runLen` lemmas -/

theorem commonPrefixLen_le_left (x y : List Char) :
    commonPrefixLen x y ≤ x.length := by
  induction x generalizing y with
  | nil => simp [commonPrefixLen]
  | cons a as ih =>
    cases y with
    | nil => simp [commonPrefixLen]
    | cons b bs =>
      rw [commonPrefixLen]
      by_cases h : a = b
      · rw [if_pos h]; simpa using ih bs
      · rw [if_neg h]; simp

theorem commonPrefixLen_le_right (x y : List Char) :
    commonPrefixLen x y ≤ y.length := by
  induction x generalizing y with
  | nil => simp [commonPrefixLen]
  | cons a as ih =>
    cases y with
    | nil => simp [commonPrefixLen]
    | cons b bs =>
      rw [commonPrefixLen]
      by_cases h : a = b
      · rw [if_pos h]; simpa using ih bs
      · rw [if_neg h]; simp

theorem commonPrefixLen_self (x : List Char) : commonPrefixLen x x = x.length := by
  induction x with
  | nil => simp [commonPrefixLen]
  | cons a as ih => rw [commonPrefixLen, if_pos rfl, ih, List.length_cons]

theorem commonPrefixLen_take (x y : List Char) :
    x.take (commonPrefixLen x y) = y.take (commonPrefixLen x y) := by
  induction x generalizing y with
  | nil => simp [commonPrefixLen]
  | cons a as ih =>
    cases y with
    | nil => simp [commonPrefixLen]
    | cons b bs =>
      rw [commonPrefixLen]
      by_cases h : a = b
      · rw [if_pos h, List.take_succ_cons, List.take_succ_cons, h, ih bs]
      · rw [if_neg h]; simp

theorem runLen_le_a (a b : List Char) (ahi bhi i j : Nat) :
    runLen a b ahi bhi i j ≤ ahi - i := by
  rw [runLen]
  refine le_trans (commonPrefixLen_le_left _ _) ?_
  simp [List.length_take]

theorem runLen_le_b (a b : List Char) (ahi bhi i j : Nat) :
    runLen a b ahi bhi i j ≤ bhi - j := by
  rw [runLen]
  refine le_trans (commonPrefixLen_le_right _ _) ?_
  simp [List.length_take]

theorem runLen_slice_eq (a b : List Char) (ahi bhi i j : Nat) :
    (a.drop i).take (runLen a b ahi bhi i j) = (b.drop j).take (runLen a b ahi bhi i j) := by
  have h := commonPrefixLen_take ((a.drop i).take (ahi - i)) ((b.drop j).take (bhi - j))
  rw [List.take_take, List.take_take] at h
  have ha := runLen_le_a a b ahi bhi i j
  have hb := runLen_le_b a b ahi bhi i j
  simp only [runLen] at ha hb h ⊢
  rw [min_eq_left ha, min_eq_left hb] at h
  exact h

theorem runLen_self (a : List Char) :
    runLen a a a.length a.length 0 0 = a.length := by
  rw [runLen]
  simp [commonPrefixLen_self]

/-! ### `pairList` and max-fold lemmas -/

theorem mem_pairList {is js : List Nat} {p : Nat × Nat} :
    p ∈ pairList is js ↔ p.1 ∈ is ∧ p.2 ∈ js := by
  induction is with
  | nil => rw [pairList]; simp
  | cons i rest ih =>
    rw [pairList]
    simp only [List.mem_append, List.mem_map, ih, List.mem_cons]
    constructor
    · rintro (⟨j, hj, rfl⟩ | ⟨h1, h2⟩)
      · exact ⟨Or.inl rfl, hj⟩
      · exact ⟨Or.inr h1, h2⟩
    · rintro ⟨h1 | h1, h2⟩
      · exact Or.inl ⟨p.2, h2, by rw [← h1]⟩
      · exact Or.inr ⟨h1, h2⟩

theorem le_foldl_max (l : List Nat) (a : Nat) : a ≤ l.foldl max a := by
  induction l generalizing a with
  | nil => exact le_refl a
  | cons x xs ih => exact le_trans (le_max_left a x) (ih (max a x))

theorem mem_le_foldl_max {l : List Nat} {x : Nat} (h : x ∈ l) (a : Nat) :
    x ≤ l.foldl max a := by
  induction l generalizing a with
  | nil => cases h
  | cons y ys ih =>
    rcases List.mem_cons.mp h with rfl | h'
    · exact le_trans (le_max_right a x) (le_foldl_max ys _)
    · exact ih h' _

theorem foldl_max_le {l : List Nat} {c : Nat} (ha : ∀ x ∈ l, x ≤ c) (a : Nat)
    (h0 : a ≤ c) : l.foldl max a ≤ c := by
  induction l generalizing a with
  | nil => exact h0
  | cons x xs ih =>
    exact ih (fun y hy => ha y (List.mem_cons_of_mem _ hy))
      _ (max_le h0 (ha x (List.mem_cons_self _ _)))

theorem foldl_max_eq {l : List Nat} {n : Nat} (hmem : n ∈ l) (hub : ∀ x ∈ l, x ≤ n) :
    l.foldl max 0 = n :=
  le_antisymm (foldl_max_le hub 0 (Nat.zero_le n)) (mem_le_foldl_max hmem 0)

/-! ### `findLongestMatch` lemmas -/

theorem matchedAux_zero (a b : List Char) (alo ahi blo bhi : Nat) :
    matchedAux a b 0 alo ahi blo bhi = 0 := rfl

theorem matchedAux_succ (a b : List Char) (fuel alo ahi blo bhi : Nat) :
    matchedAux a b (fuel + 1) alo ahi blo bhi =
      (if (findLongestMatch a b alo ahi blo bhi).2.2 = 0 then 0 else
        matchedAux a b fuel alo (findLongestMatch a b alo ahi blo bhi).1 blo
            (findLongestMatch a b alo ahi blo bhi).2.1 +
          (findLongestMatch a b alo ahi blo bhi).2.2 +
          matchedAux a b fuel
            ((findLongestMatch a b alo ahi blo bhi).1 +
              (findLongestMatch a b alo ahi blo bhi).2.2) ahi
            ((findLongestMatch a b alo ahi blo bhi).2.1 +
              (findLongestMatch a b alo ahi blo bhi).2.2) bhi) := rfl

theorem flm_bounds {a b : List Char} {alo ahi blo bhi i j k : Nat}
    (hab : alo ≤ ahi) (hbb : blo ≤ bhi)
    (h : findLongestMatch a b alo ahi blo bhi = (i, j, k)) :
    alo ≤ i ∧ i + k ≤ ahi ∧ blo ≤ j ∧ j + k ≤ bhi ∧
      (a.drop i).take k = (b.drop j).take k := by
  simp only [findLongestMatch] at h
  split at h
  case h_1 p heq =>
    obtain ⟨rfl, rfl, rfl⟩ : p.1 = i ∧ p.2 = j ∧
        ((flmCandidates alo ahi blo bhi).map
          (fun p => runLen a b ahi bhi p.1 p.2)).foldl max 0 = k := by
      exact ⟨congrArg Prod.fst h, congrArg (fun x => x.2.1) h, congrArg (fun x => x.2.2) h⟩
    have hmem := List.mem_of_find?_eq_some heq
    have hpred := List.find?_some heq
    rw [flmCandidates] at hmem
    rw [mem_pairList] at hmem
    rw [List.mem_range'_1] at hmem
    rw [List.mem_range'_1] at hmem
    have hk : runLen a b ahi bhi p.1 p.2 =
        ((flmCandidates alo ahi blo bhi).map
          (fun p => runLen a b ahi bhi p.1 p.2)).foldl max 0 := by
      simp only [beq_iff_eq] at hpred
      exact hpred
    have hka := runLen_le_a a b ahi bhi p.1 p.2
    have hkb := runLen_le_b a b ahi bhi p.1 p.2
    rw [hk] at hka hkb
    refine ⟨hmem.1.1, by omega, hmem.2.1, by omega, ?_⟩
    rw [← hk]
    exact runLen_slice_eq a b ahi bhi p.1 p.2
  case h_2 heq =>
    obtain ⟨rfl, rfl, rfl⟩ : alo = i ∧ blo = j ∧ 0 = k := by
      exact ⟨congrArg Prod.fst h, congrArg (fun x => x.2.1) h, congrArg (fun x => x.2.2) h⟩
    simp [hab, hbb]

theorem matchedAux_le (a b : List Char) (fuel : Nat) :
    ∀ alo ahi blo bhi, alo ≤ ahi → blo ≤ bhi →
      matchedAux a b fuel alo ahi blo bhi ≤ ahi - alo ∧
      matchedAux a b fuel alo ahi blo bhi ≤ bhi - blo := by
  induction fuel with
  | zero => intro alo ahi blo bhi _ _; rw [matchedAux_zero]; omega
  | succ f ih =>
    intro alo ahi blo bhi hab hbb
    rcases hf : findLongestMatch a b alo ahi blo bhi with ⟨i, j, k⟩
    obtain ⟨h1, h2, h3, h4, -⟩ := flm_bounds hab hbb hf
    rw [matchedAux_succ, hf]
    simp only
    by_cases hk : k = 0
    · rw [if_pos hk]; omega
    · rw [if_neg hk]
      obtain ⟨hL1, hL2⟩ := ih alo i blo j h1 h3
      obtain ⟨hR1, hR2⟩ := ih (i + k) ahi (j + k) bhi h2 h4
      omega

theorem matchedSize_le_left (a b : List Char) : matchedSize a b ≤ a.length := by
  have := (matchedAux_le a b (a.length + 1) 0 a.length 0 b.length
    (Nat.zero_le _) (Nat.zero_le _)).1
  rw [matchedSize]
  omega

theorem matchedSize_le_right (a b : List Char) : matchedSize a b ≤ b.length := by
  have := (matchedAux_le a b (a.length + 1) 0 a.length 0 b.length
    (Nat.zero_le _) (Nat.zero_le _)).2
  rw [matchedSize]
  omega

/-! ### `ratio` lemmas -/

theorem ratio_nonneg (a b : List Char) : 0 ≤ ratio a b := by
  rw [ratio]
  apply div_nonneg
  · positivity
  · positivity

theorem ratio_le_one (a b : List Char) : ratio a b ≤ 1 := by
  rw [ratio]
  by_cases h0 : a.length + b.length = 0
  · rw [h0]
    norm_num
  · rw [div_le_one (by positivity)]
    have h1 := matchedSize_le_left a b
    have h2 := matchedSize_le_right a b
    have : 2 * matchedSize a b ≤ a.length + b.length := by omega
    exact_mod_cast this

theorem flm_self (a : List Char) (h : a ≠ []) :
    findLongestMatch a a 0 a.length 0 a.length = (0, 0, a.length) := by
  have hn : 0 < a.length := List.length_pos.mpr h
  have hmem : ((0 : Nat), (0 : Nat)) ∈ flmCandidates 0 a.length 0 a.length := by
    rw [flmCandidates, mem_pairList]
    constructor <;> (rw [List.mem_range'_1]; omega)
  have hub : ∀ x ∈ (flmCandidates 0 a.length 0 a.length).map
      (fun p => runLen a a a.length a.length p.1 p.2), x ≤ a.length := by
    intro x hx
    rw [List.mem_map] at hx
    obtain ⟨p, hp, rfl⟩ := hx
    exact le_trans (runLen_le_a _ _ _ _ _ _) (by omega)
  have hbest : ((flmCandidates 0 a.length 0 a.length).map
      (fun p => runLen a a a.length a.length p.1 p.2)).foldl max 0 = a.length := by
    apply foldl_max_eq _ hub
    rw [List.mem_map]
    exact ⟨(0, 0), hmem, runLen_self a⟩
  obtain ⟨t, hcand⟩ : ∃ t, flmCandidates 0 a.length 0 a.length = ((0 : Nat), (0 : Nat)) :: t := by
    obtain ⟨n, hn'⟩ : ∃ n, a.length = n + 1 := ⟨a.length - 1, by omega⟩
    rw [flmCandidates, Nat.sub_zero, hn', List.range'_succ, pairList, List.map_cons]
    exact ⟨_, rfl⟩
  have hfind : (flmCandidates 0 a.length 0 a.length).find?
      (fun p => runLen a a a.length a.length p.1 p.2 ==
        ((flmCandidates 0 a.length 0 a.length).map
          (fun p => runLen a a a.length a.length p.1 p.2)).foldl max 0) = some (0, 0) := by
    rw [hbest, hcand]
    rw [List.find?_cons_of_pos _ (by simp [runLen_self a])]
  simp only [findLongestMatch]
  rw [hfind, hbest]

theorem matchedSize_self (a : List Char) (h : a ≠ []) : matchedSize a a = a.length := by
  have hn : 0 < a.length := List.length_pos.mpr h
  rw [matchedSize, matchedAux_succ, flm_self a h]
  simp only
  rw [if_neg (by omega)]
  have h1 := (matchedAux_le a a a.length 0 0 0 0 (le_refl 0) (le_refl 0)).1
  have h2 := (matchedAux_le a a a.length (0 + a.length) a.length (0 + a.length) a.length
    (by omega) (by omega)).1
  omega

theorem ratio_self (a : List Char) (h : a ≠ []) : ratio a a = 1 := by
  have hn : 0 < a.length := List.length_pos.mpr h
  have hq : ((a.length : ℚ)) ≠ 0 := Nat.cast_ne_zero.mpr (by omega)
  rw [ratio, matchedSize_self a h]
  have hd : ((a.length + a.length : Nat) : ℚ) = 2 * (a.length : ℚ) := by push_cast; ring
  rw [hd, div_eq_one_iff_eq (by exact mul_ne_zero two_ne_zero hq)]

theorem matchedAux_cover (a b : List Char) (fuel : Nat) :
    ∀ alo ahi blo bhi, alo ≤ ahi → ahi ≤ a.length → blo ≤ bhi → bhi ≤ b.length →
      matchedAux a b fuel alo ahi blo bhi = ahi - alo →
      matchedAux a b fuel alo ahi blo bhi = bhi - blo →
      (a.drop alo).take (ahi - alo) = (b.drop blo).take (bhi - blo) := by
  induction fuel with
  | zero =>
    intro alo ahi blo bhi h1 h2 h3 h4 hA hB
    rw [matchedAux_zero] at hA hB
    rw [← hA, ← hB]
    simp
  | succ f ih =>
    intro alo ahi blo bhi h1 h2 h3 h4 hA hB
    rcases hf : findLongestMatch a b alo ahi blo bhi with ⟨i, j, k⟩
    obtain ⟨hi1, hi2, hj1, hj2, hslice⟩ := flm_bounds h1 h3 hf
    rw [matchedAux_succ, hf] at hA hB
    simp only at hA hB
    by_cases hk : k = 0
    · rw [if_pos hk] at hA hB
      rw [← hA, ← hB]
      simp
    · rw [if_neg hk] at hA hB
      obtain ⟨hL1, hL2⟩ := matchedAux_le a b f alo i blo j hi1 hj1
      obtain ⟨hR1, hR2⟩ := matchedAux_le a b f (i + k) ahi (j + k) bhi hi2 hj2
      have hLa : matchedAux a b f alo i blo j = i - alo := by omega
      have hLb : matchedAux a b f alo i blo j = j - blo := by omega
      have hRa : matchedAux a b f (i + k) ahi (j + k) bhi = ahi - (i + k) := by omega
      have hRb : matchedAux a b f (i + k) ahi (j + k) bhi = bhi - (j + k) := by omega
      have hIHL := ih alo i blo j hi1 (by omega) hj1 (by omega) hLa hLb
      have hIHR := ih (i + k) ahi (j + k) bhi hi2 h2 hj2 h4 hRa hRb
      have hsplitA : ahi - alo = (i - alo) + (k + (ahi - (i + k))) := by omega
      have hsplitB : bhi - blo = (j - blo) + (k + (bhi - (j + k))) := by omega
      rw [hsplitA, hsplitB]
      simp only [List.take_add, List.drop_drop]
      have e1 : alo + (i - alo) = i := by omega
      have e2 : blo + (j - blo) = j := by omega
      rw [e1, e2, hIHL, hslice, hIHR]

theorem ratio_eq_one {a b : List Char} (h : ratio a b = 1) : a = b := by
  rw [ratio] at h
  by_cases h0 : a.length + b.length = 0
  · rw [h0] at h
    norm_num at h
  · have hML := matchedSize_le_left a b
    have hMR := matchedSize_le_right a b
    rw [div_eq_one_iff_eq (by positivity)] at h
    have h2 : 2 * matchedSize a b = a.length + b.length := by exact_mod_cast h
    have hMa : matchedSize a b = a.length := by omega
    have hMb : matchedSize a b = b.length := by omega
    have := matchedAux_cover a b (a.length + 1) 0 a.length 0 b.length
      (Nat.zero_le _) (le_refl _) (Nat.zero_le _) (le_refl _)
      (by rw [← matchedSize]; omega) (by rw [← matchedSize]; omega)
    simpa using this

/-! ### Max-fold lemmas over a linear order (for rational scores) -/

theorem init_le_foldl_max {α : Type} [LinearOrder α] (l : List α) (a : α) :
    a ≤ l.foldl max a := by
  induction l generalizing a with
  | nil => exact le_refl a
  | cons x xs ih => exact le_trans (le_max_left a x) (ih (max a x))

theorem mem_le_foldl_max_of_mem {α : Type} [LinearOrder α] {l : List α} {x : α}
    (h : x ∈ l) (a : α) : x ≤ l.foldl max a := by
  induction l generalizing a with
  | nil => cases h
  | cons y ys ih =>
    rcases List.mem_cons.mp h with rfl | h'
    · exact le_trans (le_max_right a x) (init_le_foldl_max ys _)
    · exact ih h' _

theorem foldl_max_le_ub {α : Type} [LinearOrder α] {l : List α} {c : α}
    (ha : ∀ x ∈ l, x ≤ c) (a : α) (h0 : a ≤ c) : l.foldl max a ≤ c := by
  induction l generalizing a with
  | nil => exact h0
  | cons x xs ih =>
    exact ih (fun y hy => ha y (List.mem_cons_of_mem _ hy))
      _ (max_le h0 (ha x (List.mem_cons_self _ _)))

/-! ### `bestLoop` lemmas -/

theorem bestLoop_score (nq : Url) (l : List Url) :
    ∀ (b : Option Url) (s : ℚ),
      (bestLoop nq (b, s) l).2 = (l.map (fun c => ratio nq (normalize_url c))).foldl max s := by
  induction l with
  | nil => intro b s; rfl
  | cons c rest ih =>
    intro b s
    rw [bestLoop]
    dsimp only
    by_cases h : s < ratio nq (normalize_url c)
    · rw [if_pos h, ih, List.map_cons, List.foldl_cons]
      rw [max_eq_right (le_of_lt h)]
    · rw [if_neg h, ih, List.map_cons, List.foldl_cons]
      rw [max_eq_left (le_of_not_lt h)]

theorem bestScore_eq (q : Url) (C : List Url) :
    (bestLoop (normalize_url q) ((none : Option Url), 0) C).2 = bestScore q C := by
  rw [bestScore, bestLoop_score]

theorem bestLoop_cases (nq : Url) (l : List Url) :
    ∀ (b : Option Url) (s : ℚ),
      bestLoop nq (b, s) l = (b, s) ∨
      ∃ c ∈ l, bestLoop nq (b, s) l = (some c, ratio nq (normalize_url c)) := by
  induction l with
  | nil => intro b s; exact Or.inl rfl
  | cons c rest ih =>
    intro b s
    rw [bestLoop]
    dsimp only
    by_cases h : s < ratio nq (normalize_url c)
    · rw [if_pos h]
      rcases ih (some c) (ratio nq (normalize_url c)) with h' | ⟨c', hc', h'⟩
      · exact Or.inr ⟨c, List.mem_cons_self _ _, h'⟩
      · exact Or.inr ⟨c', List.mem_cons_of_mem _ hc', h'⟩
    · rw [if_neg h]
      rcases ih b s with h' | ⟨c', hc', h'⟩
      · exact Or.inl h'
      · exact Or.inr ⟨c', List.mem_cons_of_mem _ hc', h'⟩

theorem bestLoop_first (nq : Url) (l : List Url) :
    ∀ (b : Option Url) (s : ℚ) (m : Url) (t : ℚ),
      bestLoop nq (b, s) l = (some m, t) →
      (b = some m ∧ s = t ∧ ∀ c ∈ l, ratio nq (normalize_url c) ≤ t) ∨
      (∃ l₁ l₂, l = l₁ ++ m :: l₂ ∧ t = ratio nq (normalize_url m) ∧ s < t ∧
        (∀ c ∈ l₁, ratio nq (normalize_url c) < t) ∧
        (∀ c ∈ l₂, ratio nq (normalize_url c) ≤ t)) := by
  induction l with
  | nil =>
    intro b s m t h
    rw [bestLoop] at h
    obtain ⟨h1, h2⟩ := Prod.mk.injEq b s (some m) t ▸ h
    exact Or.inl ⟨h1, h2, by simp⟩
  | cons c rest ih =>
    intro b s m t h
    rw [bestLoop] at h
    dsimp only at h
    by_cases hc : s < ratio nq (normalize_url c)
    · rw [if_pos hc] at h
      rcases ih (some c) (ratio nq (normalize_url c)) m t h with
        ⟨hb, hs, hall⟩ | ⟨l₁, l₂, hl, ht, hst, h₁, h₂⟩
      · obtain rfl : c = m := Option.some.injEq c m ▸ hb
        refine Or.inr ⟨[], rest, rfl, hs.symm, ?_, by simp, hall⟩
        rw [← hs]
        exact hc
      · refine Or.inr ⟨c :: l₁, l₂, by rw [hl]; rfl, ht, lt_trans hc hst, ?_, h₂⟩
        intro x hx
        rcases List.mem_cons.mp hx with rfl | hx'
        · exact hst
        · exact h₁ x hx'
    · rw [if_neg hc] at h
      rcases ih b s m t h with ⟨hb, hs, hall⟩ | ⟨l₁, l₂, hl, ht, hst, h₁, h₂⟩
      · refine Or.inl ⟨hb, hs, ?_⟩
        intro x hx
        rcases List.mem_cons.mp hx with rfl | hx'
        · rw [← hs]
          exact le_of_not_lt hc
        · exact hall x hx'
      · refine Or.inr ⟨c :: l₁, l₂, by rw [hl]; rfl, ht, hst, ?_, h₂⟩
        intro x hx
        rcases List.mem_cons.mp hx with rfl | hx'
        · exact lt_of_le_of_lt (le_of_not_lt hc) hst
        · exact h₁ x hx'

/-! ### `find_best_match` lemmas -/

theorem fbm_eq (q : Url) (C : List Url) :
    find_best_match q C =
      if 3/5 < bestScore q C
        then bestLoop (normalize_url q) ((none : Option Url), 0) C
        else ((none : Option Url), 0) := by
  rw [find_best_match]
  rw [bestScore_eq]

theorem fbm_of_gt {q : Url} {C : List Url} (h : 3/5 < bestScore q C) :
    ∃ m ∈ C, find_best_match q C = (some m, bestScore q C) := by
  rcases bestLoop_cases (normalize_url q) C none 0 with hres | ⟨c, hc, hres⟩
  · have h2 := bestScore_eq q C
    rw [hres] at h2
    rw [← h2] at h
    norm_num at h
  · have h2 := bestScore_eq q C
    rw [hres] at h2
    dsimp only at h2
    refine ⟨c, hc, ?_⟩
    rw [fbm_eq, if_pos h, hres, h2]

theorem fbm_some_decomp {q : Url} {C : List Url} {m : Url} {s : ℚ}
    (h : find_best_match q C = (some m, s)) :
    ∃ l₁ l₂, C = l₁ ++ m :: l₂ ∧
      s = ratio (normalize_url q) (normalize_url m) ∧
      (∀ c ∈ l₁, ratio (normalize_url q) (normalize_url c) < s) ∧
      (∀ c ∈ l₂, ratio (normalize_url q) (normalize_url c) ≤ s) := by
  rw [fbm_eq] at h
  by_cases hb : 3/5 < bestScore q C
  · rw [if_pos hb] at h
    rcases bestLoop_first (normalize_url q) C none 0 m s h with
      ⟨hb', -, -⟩ | ⟨l₁, l₂, h1, h2, h3, h4, h5⟩
    · cases hb'
    · exact ⟨l₁, l₂, h1, h2, h4, h5⟩
  · rw [if_neg hb] at h
    cases Prod.mk.injEq (none : Option Url) (0 : ℚ) (some m) s ▸ h |>.1

theorem normalize_url_ne_nil (u : Url) : normalize_url u ≠ [] := by
  intro h0
  have h1 := normalize_url_head u
  rw [h0] at h1
  cases h1

theorem normalize_slashFix (q : Url) : normalize_url (slashFix q) = normalize_url q := by
  rw [slashFix]
  by_cases hq : q.head? = some '/'
  · rw [if_pos hq]
  · rw [if_neg hq, normalize_url, normalize_url, if_neg hq, if_pos (by simp)]

/-- C1: `find_best_match` returns a (candidate, score) pair exactly when the
maximum similarity score over the candidates strictly exceeds 0.6, and returns
`(None, 0)` otherwise; an empty candidate list yields no match. -/
theorem C1_find_best_match_threshold (q : Url) (C : List Url) :
    (3/5 < bestScore q C →
      ∃ m ∈ C, find_best_match q C = (some m, bestScore q C)) ∧
    (¬ 3/5 < bestScore q C → find_best_match q C = ((none : Option Url), 0)) ∧
    find_best_match q [] = ((none : Option Url), 0) := by
  refine ⟨fun h => fbm_of_gt h, fun h => by rw [fbm_eq, if_neg h], ?_⟩
  rw [fbm_eq]
  rw [if_neg]
  rw [bestScore]
  norm_num

theorem ratio_slash_a : ratio ['/', 'a'] ['/', 'a'] = 1 := by
  rw [ratio, show matchedSize ['/', 'a'] ['/', 'a'] = 2 from by decide]
  norm_num

theorem bestScore_slash_a : bestScore ['/', 'a'] [['/', 'a']] = 1 := by
  rw [bestScore, List.map_singleton]
  rw [show normalize_url ['/', 'a'] = ['/', 'a'] from by decide, ratio_slash_a]
  simp

theorem C1_witness :
    ∃ m ∈ [['/', 'a']], find_best_match ['/', 'a'] [['/', 'a']] =
      (some m, bestScore ['/', 'a'] [['/', 'a']]) :=
  (C1_find_best_match_threshold ['/', 'a'] [['/', 'a']]).1
    (by rw [bestScore_slash_a]; norm_num)

/-- C3: when `find_best_match` returns a match, the matched candidate is the
first one in corpus order achieving the maximal score: every earlier candidate
scores strictly lower, every later one scores no higher. -/
theorem C3_first_seen_max (q : Url) (C : List Url) (m : Url) (s : ℚ)
    (h : find_best_match q C = (some m, s)) :
    ∃ l₁ l₂, C = l₁ ++ m :: l₂ ∧
      s = ratio (normalize_url q) (normalize_url m) ∧
      (∀ c ∈ l₁, ratio (normalize_url q) (normalize_url c) < s) ∧
      (∀ c ∈ l₂, ratio (normalize_url q) (normalize_url c) ≤ s) :=
  fbm_some_decomp h

theorem fbm_tie_eval :
    find_best_match ['a'] [['/', 'a'], ['/', 'A']] = (some ['/', 'a'], 1) := by
  have e1 : normalize_url ['a'] = ['/', 'a'] := by decide
  have e2 : normalize_url ['/', 'a'] = ['/', 'a'] := by decide
  have e3 : normalize_url ['/', 'A'] = ['/', 'a'] := by decide
  have hb : bestLoop ['/', 'a'] ((none : Option Url), 0) [['/', 'a'], ['/', 'A']] =
      (some ['/', 'a'], 1) := by
    rw [bestLoop]
    simp only [e2, ratio_slash_a]
    rw [if_pos (by norm_num), bestLoop]
    simp only [e3, ratio_slash_a]
    rw [if_neg (by norm_num), bestLoop]
  rw [find_best_match, e1, hb]
  rw [if_pos (by norm_num)]

theorem C3_witness :
    ∃ l₁ l₂, ([['/', 'a'], ['/', 'A']] : List Url) = l₁ ++ ['/', 'a'] :: l₂ ∧
      (1 : ℚ) = ratio (normalize_url ['a']) (normalize_url ['/', 'a']) ∧
      (∀ c ∈ l₁, ratio (normalize_url ['a']) (normalize_url c) < 1) ∧
      (∀ c ∈ l₂, ratio (normalize_url ['a']) (normalize_url c) ≤ 1) :=
  C3_first_seen_max ['a'] [['/', 'a'], ['/', 'A']] ['/', 'a'] 1 fbm_tie_eval

/-- C10: a returned match is an element of the candidate list in its original
form, and the returned score is the similarity ratio of the normalized query
and the normalized match. -/
theorem C10_match_original_form (q : Url) (C : List Url) (m : Url) (s : ℚ)
    (h : find_best_match q C = (some m, s)) :
    m ∈ C ∧ s = ratio (normalize_url q) (normalize_url m) := by
  obtain ⟨l₁, l₂, h1, h2, -, -⟩ := fbm_some_decomp h
  exact ⟨h1 ▸ List.mem_append_right l₁ (List.mem_cons_self m l₂), h2⟩

theorem fbm_single_eval :
    find_best_match ['a'] [['/', 'a']] = (some ['/', 'a'], 1) := by
  have e1 : normalize_url ['a'] = ['/', 'a'] := by decide
  have e2 : normalize_url ['/', 'a'] = ['/', 'a'] := by decide
  have hb : bestLoop ['/', 'a'] ((none : Option Url), 0) [['/', 'a']] =
      (some ['/', 'a'], 1) := by
    rw [bestLoop]
    simp only [e2, ratio_slash_a]
    rw [if_pos (by norm_num), bestLoop]
  rw [find_best_match, e1, hb]
  rw [if_pos (by norm_num)]

theorem C10_witness :
    ['/', 'a'] ∈ [['/', 'a']] ∧
      (1 : ℚ) = ratio (normalize_url ['a']) (normalize_url ['/', 'a']) :=
  C10_match_original_form ['a'] [['/', 'a']] ['/', 'a'] 1 fbm_single_eval

/-- C4: if some candidate has the same normalized form as the query, the
matcher returns a candidate of that normalized form with score 1.0. -/
theorem C4_verbatim_match (q : Url) (C : List Url)
    (h : ∃ c ∈ C, normalize_url c = normalize_url q) :
    (find_best_match q C).2 = 1 ∧
    ∃ m, (find_best_match q C).1 = some m ∧ m ∈ C ∧
      normalize_url m = normalize_url q := by
  obtain ⟨c, hc, hcn⟩ := h
  have hfc : ratio (normalize_url q) (normalize_url c) = 1 := by
    rw [hcn]
    exact ratio_self _ (normalize_url_ne_nil q)
  have hbs_le : bestScore q C ≤ 1 := by
    rw [bestScore]
    refine foldl_max_le_ub ?_ _ (by norm_num)
    intro x hx
    rw [List.mem_map] at hx
    obtain ⟨d, -, rfl⟩ := hx
    exact ratio_le_one _ _
  have hbs_ge : (1 : ℚ) ≤ bestScore q C := by
    rw [bestScore]
    refine le_trans (le_of_eq hfc.symm) (mem_le_foldl_max_of_mem ?_ 0)
    rw [List.mem_map]
    exact ⟨c, hc, rfl⟩
  have hbs : bestScore q C = 1 := le_antisymm hbs_le hbs_ge
  obtain ⟨m, hm, hfbm⟩ := fbm_of_gt (q := q) (C := C) (by rw [hbs]; norm_num)
  rw [hbs] at hfbm
  obtain ⟨l₁, l₂, -, h2, -, -⟩ := fbm_some_decomp hfbm
  refine ⟨by rw [hfbm], m, by rw [hfbm], hm, ?_⟩
  exact (ratio_eq_one h2.symm).symm

theorem C4_witness :
    (find_best_match ['A'] [['/', 'a']]).2 = 1 ∧
    ∃ m, (find_best_match ['A'] [['/', 'a']]).1 = some m ∧ m ∈ [['/', 'a']] ∧
      normalize_url m = normalize_url ['A'] :=
  C4_verbatim_match ['A'] [['/', 'a']] (by decide)

/-- C9: the matcher's result depends on the query only through its normalized
form; in particular the leading-slash correction `process_batch` applies to the
new URL before matching does not change the outcome. -/
theorem C9_normalization_invariant (q q' : Url) (C : List Url) :
    (normalize_url q = normalize_url q' →
      find_best_match q C = find_best_match q' C) ∧
    find_best_match (slashFix q) C = find_best_match q C := by
  constructor
  · intro h
    rw [find_best_match, find_best_match, h]
  · rw [find_best_match, find_best_match, normalize_slashFix]

theorem C9_witness :
    find_best_match ['a'] [['/', 'b']] = find_best_match ['/', 'A'] [['/', 'b']] :=
  (C9_normalization_invariant ['a'] ['/', 'A'] [['/', 'b']]).1 (by decide)

/-! ### `process_batch` lemmas -/

theorem slashFix_head (u : Url) : (slashFix u).head? = some '/' := by
  rw [slashFix]
  by_cases h : u.head? = some '/'
  · rw [if_pos h]
    exact h
  · rw [if_neg h]
    rfl

/-- C6: for every batch and candidate corpus, the matched count plus the
unmatched count returned by `process_batch` equals the batch size. -/
theorem C6_counts_partition (batch C : List Url) :
    (process_batch batch C).1.length + (process_batch batch C).2.length =
      batch.length := by
  induction batch with
  | nil => rfl
  | cons u rest ih =>
    rw [process_batch]
    rcases hf : find_best_match (slashFix u) C with ⟨om, s⟩
    cases om with
    | some m =>
      dsimp only
      by_cases hm : m = []
      · rw [if_pos hm]
        simp only [List.length_cons]
        omega
      · rw [if_neg hm]
        simp only [List.length_cons]
        omega
    | none =>
      dsimp only
      simp only [List.length_cons]
      omega

theorem process_batch_entries (C : List Url) (batch : List Url) :
    (∀ p ∈ (process_batch batch C).1,
      (∃ x ∈ batch, p.1 = slashFix x) ∧ ∃ y ∈ C, p.2 = slashFix y) ∧
    (∀ x ∈ (process_batch batch C).2, ∃ y ∈ batch, x = slashFix y) := by
  induction batch with
  | nil => exact ⟨by simp [process_batch], by simp [process_batch]⟩
  | cons u rest ih =>
    rw [process_batch]
    rcases hf : find_best_match (slashFix u) C with ⟨om, s⟩
    cases om with
    | some m =>
      dsimp only
      have hmC : m ∈ C := by
        obtain ⟨l₁, l₂, h1, -, -, -⟩ := fbm_some_decomp hf
        exact h1 ▸ List.mem_append_right l₁ (List.mem_cons_self m l₂)
      by_cases hm : m = []
      · rw [if_pos hm]
        refine ⟨fun p hp => ?_, fun x hx => ?_⟩
        · obtain ⟨⟨x, hx1, hx2⟩, hy⟩ := ih.1 p hp
          exact ⟨⟨x, List.mem_cons_of_mem _ hx1, hx2⟩, hy⟩
        · rcases List.mem_cons.mp hx with rfl | hx'
          · exact ⟨u, List.mem_cons_self _ _, rfl⟩
          · obtain ⟨y, hy1, hy2⟩ := ih.2 x hx'
            exact ⟨y, List.mem_cons_of_mem _ hy1, hy2⟩
      · rw [if_neg hm]
        refine ⟨fun p hp => ?_, fun x hx => ?_⟩
        · rcases List.mem_cons.mp hp with rfl | hp'
          · exact ⟨⟨u, List.mem_cons_self _ _, rfl⟩, m, hmC, rfl⟩
          · obtain ⟨⟨x, hx1, hx2⟩, hy⟩ := ih.1 p hp'
            exact ⟨⟨x, List.mem_cons_of_mem _ hx1, hx2⟩, hy⟩
        · obtain ⟨y, hy1, hy2⟩ := ih.2 x hx
          exact ⟨y, List.mem_cons_of_mem _ hy1, hy2⟩
    | none =>
      dsimp only
      refine ⟨fun p hp => ?_, fun x hx => ?_⟩
      · obtain ⟨⟨x, hx1, hx2⟩, hy⟩ := ih.1 p hp
        exact ⟨⟨x, List.mem_cons_of_mem _ hx1, hx2⟩, hy⟩
      · rcases List.mem_cons.mp hx with rfl | hx'
        · exact ⟨u, List.mem_cons_self _ _, rfl⟩
        · obtain ⟨y, hy1, hy2⟩ := ih.2 x hx'
          exact ⟨y, List.mem_cons_of_mem _ hy1, hy2⟩

/-- C8: a per-category CSV artifact is produced exactly when the corresponding
result list is nonempty, with the proper header followed by one row per result;
every output URL is the leading-slash correction of an input URL (new URLs) or
of a corpus URL (matched old URLs), casing preserved. -/
theorem C8_csv_outputs (batch C : List Url) :
    (matched_csv (process_batch batch C).1 = none ↔
      (process_batch batch C).1 = []) ∧
    ((process_batch batch C).1 ≠ [] →
      matched_csv (process_batch batch C).1 =
        some ([headerTo, headerFrom] ::
          (process_batch batch C).1.map (fun p => [p.1, p.2]))) ∧
    (unmatched_csv (process_batch batch C).2 = none ↔
      (process_batch batch C).2 = []) ∧
    ((process_batch batch C).2 ≠ [] →
      unmatched_csv (process_batch batch C).2 =
        some ([headerTo] :: (process_batch batch C).2.map (fun x => [x]))) ∧
    (∀ p ∈ (process_batch batch C).1,
      (∃ x ∈ batch, p.1 = slashFix x) ∧ (∃ y ∈ C, p.2 = slashFix y) ∧
      p.1.head? = some '/' ∧ p.2.head? = some '/') ∧
    (∀ x ∈ (process_batch batch C).2,
      (∃ y ∈ batch, x = slashFix y) ∧ x.head? = some '/') := by
  obtain ⟨hm, hu⟩ := process_batch_entries C batch
  refine ⟨?_, ?_, ?_, ?_, ?_, ?_⟩
  · rw [matched_csv]
    by_cases h : (process_batch batch C).1 = []
    · rw [if_pos h]
      simp [h]
    · rw [if_neg h]
      simp [h]
  · intro h
    rw [matched_csv, if_neg h]
  · rw [unmatched_csv]
    by_cases h : (process_batch batch C).2 = []
    · rw [if_pos h]
      simp [h]
    · rw [if_neg h]
      simp [h]
  · intro h
    rw [unmatched_csv, if_neg h]
  · intro p hp
    obtain ⟨⟨x, hx1, hx2⟩, y, hy1, hy2⟩ := hm p hp
    exact ⟨⟨x, hx1, hx2⟩, ⟨y, hy1, hy2⟩, by rw [hx2]; exact slashFix_head x,
      by rw [hy2]; exact slashFix_head y⟩
  · intro x hx
    obtain ⟨y, hy1, hy2⟩ := hu x hx
    exact ⟨⟨y, hy1, hy2⟩, by rw [hy2]; exact slashFix_head y⟩

theorem fbm_nil_eval (q : Url) : find_best_match q [] = ((none : Option Url), 0) := by
  rw [fbm_eq, if_neg]
  rw [bestScore]
  norm_num

theorem process_batch_p_eval : process_batch [['p']] [] = ([], [['/', 'p']]) := by
  rw [process_batch]
  rw [fbm_nil_eval]
  rfl

theorem C8_witness :
    unmatched_csv (process_batch [['p']] []).2 =
      some ([headerTo] :: (process_batch [['p']] []).2.map (fun x => [x])) :=
  (C8_csv_outputs [['p']] []).2.2.2.1 (by rw [process_batch_p_eval]; simp)

/-! ### Batching lemmas -/

theorem flatten_slices (bs : Nat) :
    ∀ (c : Nat) (l : List Url), l.length ≤ c * bs →
      ((List.range c).map (fun k => (l.drop (k * bs)).take bs)).flatten = l := by
  intro c
  induction c with
  | zero =>
    intro l hl
    simp only [Nat.zero_mul, Nat.le_zero, List.length_eq_zero] at hl
    subst hl
    simp
  | succ n ih =>
    intro l hl
    rw [List.range_succ_eq_map, List.map_cons, List.map_map, List.flatten_cons]
    have hstep : ∀ k : Nat,
        ((fun k => (l.drop (k * bs)).take bs) ∘ Nat.succ) k =
          ((l.drop bs).drop (k * bs)).take bs := by
      intro k
      simp only [Function.comp]
      rw [List.drop_drop]
      rw [show bs + k * bs = Nat.succ k * bs by rw [Nat.succ_mul]; omega]
    rw [List.map_congr_left (fun k _ => hstep k)]
    rw [ih (l.drop bs) (by rw [List.length_drop, Nat.succ_mul] at *; omega)]
    simp

/-- C5: the slices passed to the batch processor concatenate, in order, back to
the original new-URL sequence, and every URL occurs in the batches exactly as
often as in the input. -/
theorem C5_batches_partition (new_urls : List Url) (bs : Nat) (h : 0 < bs) :
    (batches new_urls bs).flatten = new_urls ∧
    ∀ u : Url, ((batches new_urls bs).map (List.count u)).sum = new_urls.count u := by
  have hflat : (batches new_urls bs).flatten = new_urls := by
    rw [batches]
    apply flatten_slices
    rw [batch_count]
    have h1 := Nat.div_add_mod new_urls.length bs
    have h2 := Nat.mod_lt new_urls.length h
    rw [Nat.add_mul, one_mul]
    rw [Nat.mul_comm (new_urls.length / bs) bs]
    omega
  refine ⟨hflat, fun u => ?_⟩
  rw [← List.count_flatten, hflat]

theorem C5_witness :
    (batches [['a'], ['b'], ['c']] 2).flatten = [['a'], ['b'], ['c']] :=
  (C5_batches_partition [['a'], ['b'], ['c']] 2 (by norm_num)).1

/-- C2 as stated is false at the boundary `total_new = 0`: with no new URLs and
batch size 1 the orchestrator still produces one batch, and that trailing batch
is empty although `0` is not a *positive* multiple of the batch size. -/
theorem C2_counterexample :
    (batches ([] : List Url) 1).getLast? = some ([] : List Url) ∧
    ¬ (0 < ([] : List Url).length ∧ ([] : List Url).length % 1 = 0) := by
  constructor
  · decide
  · decide

/-- C2 (amended): the number of batches is `total_new / batch_size + 1`, the
trailing batch is empty exactly when `batch_size` divides `total_new`
(including `total_new = 0`), and 5 new URLs with batch size 2 give 3 batches
of sizes `[2, 2, 1]`. -/
theorem C2_batch_count (new_urls : List Url) (bs : Nat) (h : 0 < bs) :
    (batches new_urls bs).length = batch_count new_urls.length bs ∧
    batch_count new_urls.length bs = new_urls.length / bs + 1 ∧
    ((batches new_urls bs).getLast? = some ([] : List Url) ↔
      new_urls.length % bs = 0) ∧
    (new_urls.length = 5 → bs = 2 →
      (batches new_urls bs).map List.length = [2, 2, 1]) := by
  refine ⟨?_, rfl, ?_, ?_⟩
  · rw [batches]
    simp
  · rw [batches, batch_count, List.range_succ, List.map_append, List.map_singleton,
      List.getLast?_append]
    simp only [List.getLast?_singleton, Option.or_some, Option.some.injEq]
    rw [List.take_eq_nil_iff]
    have h1 := Nat.div_add_mod new_urls.length bs
    have h2 := Nat.mod_lt new_urls.length h
    constructor
    · rintro (h3 | h3)
      · omega
      · rw [List.drop_eq_nil_iff] at h3
        rw [Nat.mul_comm] at h3
        omega
    · intro h3
      right
      rw [List.drop_eq_nil_iff, Nat.mul_comm]
      omega
  · intro h5 h2
    subst h2
    rw [batches, batch_count, h5]
    rw [show (5 / 2 + 1 : Nat) = 3 from rfl, show List.range 3 = [0, 1, 2] from rfl]
    simp [List.length_take, List.length_drop, h5]

theorem C2_witness :
    (batches (List.replicate 5 (['x'] : Url)) 2).map List.length = [2, 2, 1] :=
  (C2_batch_count (List.replicate 5 ['x']) 2 (by norm_num)).2.2.2 (by simp) rfl
